import Mathlib

/-!
Shallow embedding, in Lean 4, of the candidate-generation and serving core of
the STEP1 recommendation repository:

* `src/src/models/candidate_generation.py` — `CandidateGenerator`
  (`_normalize_scores`, `generate_popularity_scored`, `merge_candidates`);
* `src/src/models/serving.py` — `RecommendationService`
  (`_safe_int_hour`, `_fallback`, `recommend`).

Modelling conventions:

* Python floats are modelled as exact rationals (`ℚ`).  The float literal
  `1e-12` is modelled as the rational `10⁻¹²` and `1e12` as `10¹²`.
* `math.log1p` is transcendental, so it is kept as an abstract transform
  parameter `t : ℚ → ℚ` threaded through the embedding; every theorem below
  holds for an arbitrary transform (witnesses instantiate `t` with the
  identity).  Where a claim needs a property of `log1p` (strict monotonicity)
  it is taken as an explicit hypothesis, which the real `log1p` satisfies.
* Python `dict` built from a list of pairs is modelled as an association
  list in insertion order in which a repeated key overwrites its value in
  place (`dictInsert`); `dict.get(k, 0.0)` is `lookupD`.
* `sorted(xs, key=key_fn, reverse=True)` with the injective key
  `(final, cs, ps, item_id)` has a unique possible output — the strictly
  descending order of the keys — independently of iteration order and of
  stability.  It is modelled by `List.insertionSort` with the decidable
  total order `rankRel` (the reverse of the lexicographic order on keys).
* The DuckDB queries (popularity rows, CF rows, feature-store rows) are data
  sources external to the modelled functions; their results enter the
  embedding as explicit list-valued inputs.
-/

/-- Float literal `1e-12` from `_normalize_scores`, as an exact rational. -/
def eps : ℚ := 1 / 1000000000000

/-- Dataclass `ScoredItem` of `candidate_generation.py` (scores as `ℚ`). -/
structure ScoredItem where
  item_id : String
  score : ℚ
  source : String
deriving DecidableEq, Repr

/-- Python `d[k] = v` on an insertion-ordered dict modelled as an association
list: an existing key keeps its position and gets the new value, a fresh key
is appended. -/
def dictInsert (d : List (String × ℚ)) (k : String) (v : ℚ) : List (String × ℚ) :=
  if d.any (fun p => p.1 = k) then
    d.map (fun p => if p.1 = k then (p.1, v) else p)
  else d ++ [(k, v)]

/-- Python dict comprehension `{it.item_id: float(it.score) for it in items}`
(insertion order, later duplicate keys overwrite in place). -/
def dictOfItems (items : List ScoredItem) : List (String × ℚ) :=
  items.foldl (fun d it => dictInsert d it.item_id it.score) []

/-- Python `min(vals)` on a nonempty list (0 as junk value on `[]`, which the
code never reaches). -/
def listMin : List ℚ → ℚ
  | [] => 0
  | v :: vs => vs.foldl min v

/-- Python `max(vals)` on a nonempty list (0 as junk value on `[]`). -/
def listMax : List ℚ → ℚ
  | [] => 0
  | v :: vs => vs.foldl max v

/-- The list `vals = [math.log1p(max(v, 0.0)) for v in raw.values()]` of
`_normalize_scores`, with `math.log1p` abstracted as `t`. -/
def rawValsOf (t : ℚ → ℚ) (items : List ScoredItem) : List ℚ :=
  (dictOfItems items).map (fun p => t (max p.2 0))

/-- `CandidateGenerator._normalize_scores`: log1p-compress (abstract `t`),
then min–max scale to [0,1]; if `vmax <= vmin + 1e-12` every item gets 1.0. -/
def normalize_scores (t : ℚ → ℚ) (items : List ScoredItem) : List (String × ℚ) :=
  if items.isEmpty then []
  else
    let raw := dictOfItems items
    let vals := raw.map (fun p => t (max p.2 0))
    let vmin := listMin vals
    let vmax := listMax vals
    if vmax ≤ vmin + eps then raw.map (fun p => (p.1, (1 : ℚ)))
    else (raw.zip vals).map (fun pv => (pv.1.1, (pv.2 - vmin) / (vmax - vmin)))

/-- Python `d.get(k, 0.0)`. -/
def lookupD (d : List (String × ℚ)) (k : String) : ℚ :=
  match d.find? (fun p => p.1 = k) with
  | some p => p.2
  | none => 0

/-- Sort key of `merge_candidates.key_fn`: `(final, cs, ps, item_id)` as a
lexicographically ordered tuple (Python tuple comparison is exactly the lex
order, realised here by `Prod.Lex`).  Python compares the `str` item id by
code points, which is the lexicographic order on its character list, so the
last component is `id.data` (Lean's `String` order is defined from this same
list order, `String.lt_iff_toList_lt`). -/
def keyOf (pn cn : List (String × ℚ)) (wp wc : ℚ) (id : String) :
    ℚ ×ₗ ℚ ×ₗ ℚ ×ₗ List Char :=
  let ps := lookupD pn id
  let cs := lookupD cn id
  toLex (wp * ps + wc * cs, toLex (cs, toLex (ps, id.data)))

/-- Order used by `sorted(all_ids, key=key_fn, reverse=True)`: `a` precedes
`b` exactly when the key of `b` is lexicographically at most the key of `a`. -/
def rankRel (pn cn : List (String × ℚ)) (wp wc : ℚ) (a b : String) : Prop :=
  keyOf pn cn wp wc b ≤ keyOf pn cn wp wc a

instance rankRelDecidable (pn cn : List (String × ℚ)) (wp wc : ℚ) :
    DecidableRel (rankRel pn cn wp wc) := fun a b =>
  inferInstanceAs (Decidable (keyOf pn cn wp wc b ≤ keyOf pn cn wp wc a))

/-- The reversed key order is transitive: it is a genuine total order. -/
instance rankRelTrans (pn cn : List (String × ℚ)) (wp wc : ℚ) :
    IsTrans String (rankRel pn cn wp wc) :=
  ⟨fun _ _ _ h1 h2 => le_trans h2 h1⟩

instance rankRelTotal (pn cn : List (String × ℚ)) (wp wc : ℚ) :
    IsTotal String (rankRel pn cn wp wc) :=
  ⟨fun a b => (le_total (keyOf pn cn wp wc b) (keyOf pn cn wp wc a)).imp id id⟩

/-- The key is injective on ids (its last component is the id's character
list), so the reversed key order is antisymmetric: a sort by it has exactly
one possible output. -/
instance rankRelAntisymm (pn cn : List (String × ℚ)) (wp wc : ℚ) :
    IsAntisymm String (rankRel pn cn wp wc) :=
  ⟨fun a b h1 h2 => by
    have h := le_antisymm h2 h1
    unfold keyOf at h
    exact String.ext (congrArg (fun x => (ofLex (ofLex (ofLex x).2).2).2) h)⟩

/-- The `ranked = sorted(all_ids, key=key_fn, reverse=True)` step.  The key is
injective (its last component is the id itself), so every correct sort of
`ids` yields the same list; `insertionSort` realises it. -/
def rankedOf (pn cn : List (String × ℚ)) (wp wc : ℚ) (ids : List String) :
    List String :=
  List.insertionSort (rankRel pn cn wp wc) ids

/-- Canonical enumeration of `set(pop_norm.keys()) | set(cf_norm.keys())`.
The set itself has no intrinsic order; every theorem that depends on an
enumeration is proved enumeration-invariant. -/
def popCfUnion (pn cn : List (String × ℚ)) : List String :=
  pn.map Prod.fst ++ (cn.map Prod.fst).filter (fun k => decide (k ∉ pn.map Prod.fst))

/-- The popularity-expansion loop of `merge_candidates`: walk `exp_norm` in
insertion order, stop as soon as `total_k` ids are present, add only fresh
ids (and their normalized scores into `pop_norm`). -/
def expandLoop (total_k : Nat) :
    List (String × ℚ) → List (String × ℚ) → List String →
    List (String × ℚ) × List String
  | [], pn, ids => (pn, ids)
  | (k, v) :: rest, pn, ids =>
    if total_k ≤ ids.length then (pn, ids)
    else if k ∈ ids then expandLoop total_k rest pn ids
    else expandLoop total_k rest (dictInsert pn k v) (ids ++ [k])

/-- State of `merge_candidates` just before the final sort: the (possibly
expanded) `pop_norm`, the `cf_norm`, and the id pool `all_ids`. -/
def mergeState (t : ℚ → ℚ) (pop cf exp : List ScoredItem) (total_k : Nat) :
    List (String × ℚ) × List (String × ℚ) × List String :=
  let pn := normalize_scores t pop
  let cn := normalize_scores t cf
  let ids := popCfUnion pn cn
  if ids.length < total_k then
    let en := normalize_scores t exp
    let s := expandLoop total_k en pn ids
    (s.1, cn, s.2)
  else (pn, cn, ids)

/-- `CandidateGenerator.merge_candidates`, as a function of the three scored
pools that its DuckDB queries produce (`pop` = `generate_popularity_scored
(pop_top)` rows, `cf` = `generate_cf_scored_item2item(...)` rows, `exp` =
`generate_popularity_scored(fallback_pop_expand)` rows). -/
def merge_candidates (t : ℚ → ℚ) (pop cf exp : List ScoredItem)
    (total_k : Int) (w_pop w_cf : ℚ) : List String :=
  if total_k ≤ 0 then []
  else
    let s := mergeState t pop cf exp total_k.toNat
    (rankedOf s.1 s.2.1 w_pop w_cf s.2.2).take total_k.toNat

/-- `CandidateGenerator.generate_popularity_scored`, as a function of the
`(article_id, popularity_rank)` rows its query returns (already ordered by
`popularity_rank ASC NULLS LAST, article_id ASC` by the SQL): an unknown rank
becomes the very large effective rank `1e12`, ranks are clamped at 0, and
`score = 1 / (1 + rank)`. -/
def generate_popularity_scored (rows : List (String × Option ℚ)) : List ScoredItem :=
  rows.map (fun p =>
    let r0 : ℚ := match p.2 with | some pr => pr | none => 10 ^ 12
    let r := max r0 0
    { item_id := p.1, score := 1 / (1 + r), source := "pop" })

/-! ## Serving layer: `RecommendationService` of `src/src/models/serving.py`

The serving pipeline composes external collaborators that the embedding
receives as explicit inputs in `ServeEnv`:

* `candidates` — the output of `merge_candidates` for this user;
* `userFeat` — the (first) row of `feature_store.get_user_features`, `none`
  when the frame is empty; the four feature columns are numeric aggregates;
* `itemCols` / `itemRows` — the schema and the rows of
  `feature_store.get_item_features(candidates)`; a row is keyed by
  `article_id` and carries the three item features, each possibly null;
* `rankerPresent` — whether `self.ranker` was loaded;
* `predictScores` — the outcome of `self.ranker.predict(features_df)` on
  this request: a score vector, or an exception (`.error`);
* `topIdx` — the index vector produced by the
  `np.argpartition` / `np.argsort` selection.  Its tie behaviour is not
  specified by numpy, so it enters as data; an out-of-range index raises
  `IndexError` inside the `try`, which the code catches into the fallback
  (modelled by the validity gate in `recommend`).
-/

/-- The four user feature columns selected by `recommend` (numeric, produced
by SQL aggregates in `user_features.py`). -/
structure UserFeat where
  avg_purchase_hour : ℚ
  purchase_count : ℚ
  recency : ℚ
  unique_items : ℚ
deriving DecidableEq, Repr

/-- One item-feature row: the three columns `recommend` needs, each possibly
null. -/
structure ItemFeat where
  popularity_rank : Option ℚ
  sales_count : Option ℚ
  peak_hour : Option ℚ
deriving DecidableEq, Repr

/-- External inputs of one `recommend` call (see the section comment). -/
structure ServeEnv where
  candidates : List String
  userFeat : Option UserFeat
  itemCols : List String
  itemRows : List (String × ItemFeat)
  rankerPresent : Bool
  predictScores : Except Unit (List ℚ)
  topIdx : List Nat

/-- Constructor configuration of `RecommendationService`. -/
structure ServeCfg where
  top_k_default : Int
  fallback_hour : Int
deriving DecidableEq, Repr

/-- Response dictionary of `recommend`. -/
structure RecResult where
  user_id : String
  recommendations : List String
  scores : Option (List ℚ)
  optimal_send_time : Option Int
  fallback : Bool
deriving DecidableEq, Repr

/-- Python `round` (banker's rounding: ties to the even integer) on `ℚ`. -/
def pyRound (q : ℚ) : Int :=
  let f := ⌊q⌋
  let frac := q - f
  if frac < 1/2 then f
  else if 1/2 < frac then f + 1
  else if f % 2 = 0 then f else f + 1

/-- `RecommendationService._safe_int_hour`: `None` falls back to the
configured hour, otherwise round and clamp to `[0, 23]`.  (The float-NaN
branch has no counterpart for exact rationals.) -/
def safe_int_hour (fallback_hour : Int) (x : Option ℚ) : Int :=
  match x with
  | none => fallback_hour
  | some q => max 0 (min 23 (pyRound q))

/-- Python slice `l[:k]`, including the negative-`k` case (`l[:-m]` drops the
last `m` elements). -/
def pySlice (l : List α) (k : Int) : List α :=
  if 0 ≤ k then l.take k.toNat
  else l.take (l.length - (-k).toNat)

/-- `RecommendationService._fallback`: truncated candidate list, no scores,
fallback flag set. -/
def fallbackRes (cfg : ServeCfg) (user_id : String) (cands : List String)
    (user_avg_hour : Option ℚ) (top_k : Int) : RecResult :=
  { user_id := user_id
    recommendations := pySlice cands top_k
    scores := none
    optimal_send_time := some (safe_int_hour cfg.fallback_hour user_avg_hour)
    fallback := true }

/-- Effective `top_k` after line `top_k = int(top_k) if top_k else
self.top_k_default` (Python truthiness: `0` is falsy). -/
def effTopK (cfg : ServeCfg) (top_k_arg : Int) : Int :=
  if top_k_arg ≠ 0 then top_k_arg else cfg.top_k_default

/-- The `cand_df.join(it, on="article_id", how="left").sort("candidate_idx")`
step: one block of rows per candidate, in candidate order; a candidate with
no match keeps a row of nulls.  (Sorting on the surrogate `candidate_idx`
column makes the engine's join order irrelevant; the embedding produces the
candidate-ordered result directly.) -/
def leftJoinRows (candidates : List String) (itemRows : List (String × ItemFeat)) :
    List (String × ItemFeat) :=
  candidates.flatMap (fun c =>
    let ms := itemRows.filter (fun r => r.1 = c)
    if ms.isEmpty then [(c, ⟨none, none, none⟩)]
    else ms.map (fun r => (c, r.2)))

/-- The null-filter
`it2.filter(all_horizontal(col(c).is_not_null for c in needed))` followed by
extraction of the three numeric values each surviving row is known to have. -/
def completeRows (joined : List (String × ItemFeat)) : List (String × ℚ × ℚ × ℚ) :=
  joined.filterMap (fun r =>
    match r.2.popularity_rank, r.2.sales_count, r.2.peak_hour with
    | some p, some s, some h => some (r.1, p, s, h)
    | _, _, _ => none)

/-- Post-filter candidate ids, `it2["article_id"].to_list()`: the ordering
that the feature matrix, the prediction vector, and the final selection all
share. -/
def postFilterIds (env : ServeEnv) : List String :=
  (completeRows (leftJoinRows env.candidates env.itemRows)).map (fun r => r.1)

/-- The feature matrix of step 4: four constant user columns then the three
item columns, one row per post-filter candidate, in the shared order.  It is
consumed only by the opaque ranking model (whose output is
`ServeEnv.predictScores`). -/
def featureMatrix (uf : UserFeat) (rows : List (String × ℚ × ℚ × ℚ)) : List (List ℚ) :=
  rows.map (fun r =>
    [uf.avg_purchase_hour, uf.purchase_count, uf.recency, uf.unique_items,
     r.2.1, r.2.2.1, r.2.2.2])

/-- Item columns required by step 3-1 / the null filter. -/
def needed_item_cols : List String := ["popularity_rank", "sales_count", "peak_hour"]

/-- Successful (non-fallback) response of step 6: recommendations and scores
are built from the SAME index vector into the SAME post-filter ordering. -/
def successRes (cfg : ServeCfg) (user_id : String) (ids : List String)
    (scores : List ℚ) (topIdx : List Nat) (user_avg_hour : ℚ) : RecResult :=
  { user_id := user_id
    recommendations := topIdx.map (fun i => ids.getD i "")
    scores := some (topIdx.map (fun i => scores.getD i 0))
    optimal_send_time := some (safe_int_hour cfg.fallback_hour (some user_avg_hour))
    fallback := false }

/-- `RecommendationService.recommend`, with external collaborators supplied
by `env`.  The modelled region contains no uncaught raise: every branch
returns a response (step 6's `try` catches prediction and indexing errors
into `_fallback`). -/
def recommend (cfg : ServeCfg) (env : ServeEnv) (user_id : String)
    (top_k_arg : Int) : RecResult :=
  let top_k := effTopK cfg top_k_arg
  if env.candidates.isEmpty then
    { user_id := user_id, recommendations := [], scores := none,
      optimal_send_time := none, fallback := true }
  else
    match env.userFeat with
    | none => fallbackRes cfg user_id env.candidates none top_k
    | some uf =>
      let user_avg_hour := some uf.avg_purchase_hour
      if env.itemRows.isEmpty then
        fallbackRes cfg user_id env.candidates user_avg_hour top_k
      else if "article_id" ∉ env.itemCols then
        fallbackRes cfg user_id env.candidates user_avg_hour top_k
      else if needed_item_cols.filter (fun c => decide (c ∉ env.itemCols)) ≠ [] then
        fallbackRes cfg user_id env.candidates user_avg_hour top_k
      else
        let it2 := completeRows (leftJoinRows env.candidates env.itemRows)
        if it2.isEmpty then
          fallbackRes cfg user_id env.candidates user_avg_hour top_k
        else
          let ids := it2.map (fun r => r.1)
          if env.rankerPresent = false then
            fallbackRes cfg user_id ids user_avg_hour top_k
          else
            match env.predictScores with
            | .error _ => fallbackRes cfg user_id ids user_avg_hour top_k
            | .ok scores =>
              if scores.isEmpty then
                fallbackRes cfg user_id ids user_avg_hour top_k
              else if ¬ (env.topIdx.all
                  (fun i => decide (i < ids.length) && decide (i < scores.length))) then
                fallbackRes cfg user_id ids user_avg_hour top_k
              else
                successRes cfg user_id ids scores env.topIdx uf.avg_purchase_hour

/-- The prediction vector this request saw (empty when prediction failed;
used only to describe non-fallback responses, which require `.ok`). -/
def predictedOf (env : ServeEnv) : List ℚ :=
  match env.predictScores with
  | .ok s => s
  | .error _ => []

/-! ## Basic lemmas -/

theorem foldl_min_le_init (l : List ℚ) (a : ℚ) : l.foldl min a ≤ a := by
  induction l generalizing a with
  | nil => simp
  | cons b t ih => exact le_trans (ih (min a b)) (min_le_left a b)

theorem foldl_min_le_mem {l : List ℚ} {x : ℚ} (hx : x ∈ l) (a : ℚ) :
    l.foldl min a ≤ x := by
  induction l generalizing a with
  | nil => cases hx
  | cons b t ih =>
    rcases List.mem_cons.mp hx with h | h
    · subst h
      exact le_trans (foldl_min_le_init t (min a x)) (min_le_right a x)
    · exact ih h (min a b)

theorem init_le_foldl_max (l : List ℚ) (a : ℚ) : a ≤ l.foldl max a := by
  induction l generalizing a with
  | nil => simp
  | cons b t ih => exact le_trans (le_max_left a b) (ih (max a b))

theorem mem_le_foldl_max {l : List ℚ} {x : ℚ} (hx : x ∈ l) (a : ℚ) :
    x ≤ l.foldl max a := by
  induction l generalizing a with
  | nil => cases hx
  | cons b t ih =>
    rcases List.mem_cons.mp hx with h | h
    · subst h
      exact le_trans (le_max_right a x) (init_le_foldl_max t (max a x))
    · exact ih h (max a b)

theorem listMin_le {l : List ℚ} {x : ℚ} (hx : x ∈ l) : listMin l ≤ x := by
  cases l with
  | nil => cases hx
  | cons v vs =>
    rcases List.mem_cons.mp hx with h | h
    · subst h; exact foldl_min_le_init vs x
    · exact foldl_min_le_mem h v

theorem le_listMax {l : List ℚ} {x : ℚ} (hx : x ∈ l) : x ≤ listMax l := by
  cases l with
  | nil => cases hx
  | cons v vs =>
    rcases List.mem_cons.mp hx with h | h
    · subst h; exact init_le_foldl_max vs x
    · exact mem_le_foldl_max h v

/-- Membership characterisation of `normalize_scores`: each produced value is
either the degenerate 1.0 or a min–max rescaled transformed value. -/
theorem normalize_scores_mem {t : ℚ → ℚ} {items : List ScoredItem} {p : String × ℚ}
    (hp : p ∈ normalize_scores t items) :
    (listMax (rawValsOf t items) ≤ listMin (rawValsOf t items) + eps ∧ p.2 = 1) ∨
    (listMin (rawValsOf t items) + eps < listMax (rawValsOf t items) ∧
      ∃ v ∈ rawValsOf t items,
        p.2 = (v - listMin (rawValsOf t items)) /
          (listMax (rawValsOf t items) - listMin (rawValsOf t items))) := by
  unfold normalize_scores at hp
  by_cases hE : items.isEmpty
  · rw [if_pos hE] at hp; cases hp
  · rw [if_neg hE] at hp
    simp only at hp
    by_cases hdeg :
        listMax (rawValsOf t items) ≤ listMin (rawValsOf t items) + eps
    · left
      refine ⟨hdeg, ?_⟩
      rw [if_pos (by exact hdeg)] at hp
      rcases List.mem_map.mp hp with ⟨q, _, hq⟩
      rw [← hq]
    · right
      refine ⟨lt_of_not_le hdeg, ?_⟩
      rw [if_neg (by exact hdeg)] at hp
      rcases List.mem_map.mp hp with ⟨pv, hpv, hq⟩
      refine ⟨pv.2, (List.of_mem_zip hpv).2, ?_⟩
      rw [← hq]
      rfl

/-- C7 — `_normalize_scores` maps every item into [0,1]; and whenever the
spread of the transformed values is below the 1e-12 threshold (in particular
when all inputs are equal), every item gets exactly 1.0.  The log1p
transform is an arbitrary `t`; the property holds for every transform. -/
theorem normalize_scores_range (t : ℚ → ℚ) (items : List ScoredItem)
    (hne : items ≠ []) :
    (∀ p ∈ normalize_scores t items, 0 ≤ p.2 ∧ p.2 ≤ 1) ∧
    (listMax (rawValsOf t items) - listMin (rawValsOf t items) < eps →
      ∀ p ∈ normalize_scores t items, p.2 = 1) := by
  constructor
  · intro p hp
    rcases normalize_scores_mem hp with ⟨_, h1⟩ | ⟨hlt, v, hv, hval⟩
    · rw [h1]; exact ⟨zero_le_one, le_refl 1⟩
    · have hden : 0 < listMax (rawValsOf t items) - listMin (rawValsOf t items) := by
        have heps : (0 : ℚ) < eps := by norm_num [eps]
        linarith
      have hvmin := listMin_le hv
      have hvmax := le_listMax hv
      rw [hval]
      constructor
      · exact div_nonneg (by linarith) (le_of_lt hden)
      · rw [div_le_one hden]; linarith
  · intro hsp p hp
    rcases normalize_scores_mem hp with ⟨_, h1⟩ | ⟨hlt, _, _, _⟩
    · exact h1
    · exfalso; linarith

/-- Every `recommend` response is either fallback-shaped (no scores, flag
set) or the success record built from one shared index vector. -/
theorem recommend_shape (cfg : ServeCfg) (env : ServeEnv) (uid : String) (tk : Int) :
    ((recommend cfg env uid tk).scores = none ∧
      (recommend cfg env uid tk).fallback = true) ∨
    (∃ uf scores,
      env.userFeat = some uf ∧ env.predictScores = Except.ok scores ∧
      recommend cfg env uid tk
        = successRes cfg uid (postFilterIds env) scores env.topIdx uf.avg_purchase_hour ∧
      ∀ i ∈ env.topIdx, i < (postFilterIds env).length ∧ i < scores.length) := by
  unfold recommend
  dsimp only
  split
  · exact Or.inl ⟨rfl, rfl⟩
  · split
    · exact Or.inl ⟨rfl, rfl⟩
    · rename_i uf huf
      split
      · exact Or.inl ⟨rfl, rfl⟩
      · split
        · exact Or.inl ⟨rfl, rfl⟩
        · split
          · exact Or.inl ⟨rfl, rfl⟩
          · split
            · exact Or.inl ⟨rfl, rfl⟩
            · split
              · exact Or.inl ⟨rfl, rfl⟩
              · split
                · exact Or.inl ⟨rfl, rfl⟩
                · rename_i scores hps
                  split
                  · exact Or.inl ⟨rfl, rfl⟩
                  · split
                    · exact Or.inl ⟨rfl, rfl⟩
                    · rename_i hall
                      refine Or.inr ⟨uf, scores, huf, hps, rfl, ?_⟩
                      intro i hi
                      have hall' := not_not.mp hall
                      have := List.all_eq_true.mp hall' i hi
                      simpa [postFilterIds] using this

/-- C10 — in every response, `scores` is null exactly when the fallback flag
is set. -/
theorem recommend_scores_none_iff_fallback (cfg : ServeCfg) (env : ServeEnv)
    (uid : String) (tk : Int) :
    (recommend cfg env uid tk).scores = none ↔
      (recommend cfg env uid tk).fallback = true := by
  rcases recommend_shape cfg env uid tk with ⟨h1, h2⟩ | ⟨uf, scores, _, _, heq, _⟩
  · simp [h1, h2]
  · rw [heq]; simp [successRes]

/-- C1 — in every non-fallback response, the recommendation list and the
score list have the same length, and each position `i` of both lists is read
off one shared index `j` of the post-filter candidate ordering and of the
model's prediction vector for that same ordering. -/
theorem recommend_alignment (cfg : ServeCfg) (env : ServeEnv) (uid : String)
    (tk : Int) (h : (recommend cfg env uid tk).fallback = false) :
    ∃ s, (recommend cfg env uid tk).scores = some s ∧
      s.length = (recommend cfg env uid tk).recommendations.length ∧
      ∀ i, i < s.length →
        ∃ j, j < (postFilterIds env).length ∧ j < (predictedOf env).length ∧
          (recommend cfg env uid tk).recommendations.getD i ""
            = (postFilterIds env).getD j "" ∧
          s.getD i 0 = (predictedOf env).getD j 0 := by
  rcases recommend_shape cfg env uid tk with ⟨_, h2⟩ | ⟨uf, scores, huf, hps, heq, hidx⟩
  · rw [h] at h2; cases h2
  · have hpred : predictedOf env = scores := by simp [predictedOf, hps]
    refine ⟨env.topIdx.map (fun i => scores.getD i 0), ?_, ?_, ?_⟩
    · rw [heq]; rfl
    · rw [heq]; simp [successRes]
    · intro i hi
      have hi' : i < env.topIdx.length := by simpa using hi
      set j := env.topIdx.get ⟨i, hi'⟩ with hj
      have hjm : j ∈ env.topIdx := List.get_mem env.topIdx i hi'
      refine ⟨j, (hidx j hjm).1, ?_, ?_, ?_⟩
      · rw [hpred]; exact (hidx j hjm).2
      · rw [heq]
        simp only [successRes]
        rw [List.getD_eq_getElem?_getD, List.getD_eq_getElem?_getD]
        rw [List.getElem?_map, List.getElem?_eq_getElem hi']
        have hjlt := (hidx j hjm).1
        simp [postFilterIds, List.getElem?_eq_getElem hjlt, hj, List.getD]
      · rw [hpred]
        rw [List.getD_eq_getElem?_getD, List.getD_eq_getElem?_getD]
        rw [List.getElem?_map, List.getElem?_eq_getElem hi']
        have hjlt := (hidx j hjm).2
        simp [List.getElem?_eq_getElem hjlt, hj, List.getD]

theorem filter_key_length_le_one (rows : List (String × ItemFeat)) (c : String)
    (hnd : (rows.map Prod.fst).Nodup) :
    (rows.filter (fun r => decide (r.1 = c))).length ≤ 1 := by
  induction rows with
  | nil => simp
  | cons r rs ih =>
    have hnd' := hnd
    rw [List.map_cons, List.nodup_cons] at hnd'
    by_cases hc : r.1 = c
    · have hnil : rs.filter (fun r => decide (r.1 = c)) = [] := by
        rw [List.filter_eq_nil_iff]
        intro x hx
        simp only [decide_eq_true_eq]
        intro hxc
        refine hnd'.1 ?_
        rw [hc, ← hxc]
        exact List.mem_map_of_mem Prod.fst hx
      simp [List.filter_cons, hc, hnil]
    · simpa [List.filter_cons, hc] using ih hnd'.2

theorem completeRows_append (a b : List (String × ItemFeat)) :
    completeRows (a ++ b) = completeRows a ++ completeRows b := by
  unfold completeRows
  exact List.filterMap_append _ _ _

theorem completeRows_block_sublist (c : String) (ms : List (String × ItemFeat))
    (hle : ms.length ≤ 1) :
    ((completeRows (if ms.isEmpty then [(c, ⟨none, none, none⟩)]
        else ms.map (fun r => (c, r.2)))).map (fun r => r.1)).Sublist [c] := by
  match ms with
  | [] => simp [completeRows]
  | [r] =>
    simp only [List.isEmpty_cons, Bool.false_eq_true, if_false, List.map_singleton]
    rcases hr : r.2.popularity_rank with _ | p <;>
      rcases hs : r.2.sales_count with _ | sq <;>
        rcases hh : r.2.peak_hour with _ | hq <;>
          simp [completeRows, List.filterMap, hr, hs, hh]
  | r1 :: r2 :: tl => simp at hle

/-- Under a duplicate-free item-feature table, the post-filter candidate
list is an order-preserving sublist of the merged candidate list. -/
theorem postFilterIds_sublist (env : ServeEnv)
    (hnd : (env.itemRows.map Prod.fst).Nodup) :
    List.Sublist (postFilterIds env) env.candidates := by
  unfold postFilterIds
  induction env.candidates with
  | nil => simp [leftJoinRows, completeRows]
  | cons c cs ih =>
    rw [leftJoinRows, List.flatMap_cons, ← leftJoinRows]
    rw [completeRows_append, List.map_append]
    have h1 := completeRows_block_sublist c _ (filter_key_length_le_one env.itemRows c hnd)
    have h2 := List.Sublist.append h1 ih
    simpa using h2

/-- C2 — with a non-empty candidate list, an absent ranking model or a
prediction error never propagates: the response is fallback-flagged with no
scores, and its recommendations are an order-preserving sublist of the
candidate list truncated to `topK` (the full candidate list when the failure
hits before the item-feature join, the post-filter candidate list after it). -/
theorem recommend_model_failure_fallback (cfg : ServeCfg) (env : ServeEnv)
    (uid : String) (tk : Int)
    (hc : ¬ env.candidates.isEmpty)
    (hm : env.rankerPresent = false ∨ ∃ e, env.predictScores = Except.error e)
    (hnd : (env.itemRows.map Prod.fst).Nodup)
    (htk : 0 < tk) :
    (recommend cfg env uid tk).fallback = true ∧
    (recommend cfg env uid tk).scores = none ∧
    ∃ sub : List String, List.Sublist sub env.candidates ∧
      (recommend cfg env uid tk).recommendations = sub.take tk.toNat ∧
      (recommend cfg env uid tk).recommendations.length ≤ tk.toNat := by
  have htk' : effTopK cfg tk = tk := by
    unfold effTopK
    rw [if_pos (by exact fun h0 => by simp [h0] at htk)]
  have hslice : ∀ l : List String, pySlice l tk = l.take tk.toNat := by
    intro l; unfold pySlice; rw [if_pos (le_of_lt htk)]
  have hfb : ∀ cands uah,
      (fallbackRes cfg uid cands uah (effTopK cfg tk)).fallback = true ∧
      (fallbackRes cfg uid cands uah (effTopK cfg tk)).scores = none ∧
      (fallbackRes cfg uid cands uah (effTopK cfg tk)).recommendations
        = cands.take tk.toNat := by
    intro cands uah
    refine ⟨rfl, rfl, ?_⟩
    simp only [fallbackRes, htk']
    exact hslice cands
  have hlen : ∀ sub : List String, (sub.take tk.toNat).length ≤ tk.toNat := by
    intro sub; simp [List.length_take]
  have hcand : ∀ uah,
      (fallbackRes cfg uid env.candidates uah (effTopK cfg tk)).fallback = true ∧
      (fallbackRes cfg uid env.candidates uah (effTopK cfg tk)).scores = none ∧
      ∃ sub : List String, List.Sublist sub env.candidates ∧
        (fallbackRes cfg uid env.candidates uah (effTopK cfg tk)).recommendations
          = sub.take tk.toNat ∧
        (fallbackRes cfg uid env.candidates uah (effTopK cfg tk)).recommendations.length
          ≤ tk.toNat := by
    intro uah
    exact ⟨(hfb _ _).1, (hfb _ _).2.1, env.candidates, List.Sublist.refl _,
      (hfb _ _).2.2, by rw [(hfb _ _).2.2]; exact hlen _⟩
  have hpost : ∀ uah,
      (fallbackRes cfg uid (postFilterIds env) uah (effTopK cfg tk)).fallback = true ∧
      (fallbackRes cfg uid (postFilterIds env) uah (effTopK cfg tk)).scores = none ∧
      ∃ sub : List String, List.Sublist sub env.candidates ∧
        (fallbackRes cfg uid (postFilterIds env) uah (effTopK cfg tk)).recommendations
          = sub.take tk.toNat ∧
        (fallbackRes cfg uid (postFilterIds env) uah
          (effTopK cfg tk)).recommendations.length ≤ tk.toNat := by
    intro uah
    exact ⟨(hfb _ _).1, (hfb _ _).2.1, postFilterIds env, postFilterIds_sublist env hnd,
      (hfb _ _).2.2, by rw [(hfb _ _).2.2]; exact hlen _⟩
  unfold recommend
  dsimp only
  split
  · rename_i hemp; exact absurd hemp hc
  · split
    · exact hcand none
    · rename_i uf huf
      split
      · exact hcand _
      · split
        · exact hcand _
        · split
          · exact hcand _
          · split
            · exact hcand _
            · split
              · exact hpost _
              · rename_i hrk
                rcases hm with hm | ⟨e, hm⟩
                · exact absurd hm hrk
                · split
                  · exact hpost _
                  · rename_i scores hps
                    rw [hm] at hps; cases hps

/-- C3 counterexample — `recommend(u, 0)` does not raise: line 80 of
`serving.py` replaces a falsy `topK` by the default, and this concrete call
returns an ordinary fallback response. -/
theorem recommend_topk_zero_returns :
    recommend ⟨10, 12⟩
      { candidates := ["i1"], userFeat := none, itemCols := [], itemRows := [],
        rankerPresent := true, predictScores := Except.ok [], topIdx := [] }
      "u" 0
      = { user_id := "u", recommendations := ["i1"], scores := none,
          optimal_send_time := some 12, fallback := true } := by decide

/-- C3 amended — `recommend` never raises on `topK = 0`; instead a falsy
`topK` is silently replaced by the configured default, so the call behaves
exactly like a call with `top_k_default`. -/
theorem recommend_topk_zero_default (cfg : ServeCfg) (env : ServeEnv) (uid : String) :
    recommend cfg env uid 0 = recommend cfg env uid cfg.top_k_default := by
  unfold recommend effTopK
  norm_num

unseal Rat.add Rat.mul Rat.inv Rat.sub Rat.ofScientific in
/-- C5 counterexample — with the required item column `peak_hour` absent
from the feature-store schema, this concrete `recommend` call does not raise
a configuration error: it resolves to a per-request fallback response. -/
theorem recommend_missing_column_returns :
    recommend ⟨10, 12⟩
      { candidates := ["i1"], userFeat := some ⟨13, 5, 2, 3⟩,
        itemCols := ["article_id", "popularity_rank", "sales_count"],
        itemRows := [("i1", ⟨some 1, some 2, some 3⟩)],
        rankerPresent := true, predictScores := Except.ok [1], topIdx := [0] }
      "u" 10
      = { user_id := "u", recommendations := ["i1"], scores := none,
          optimal_send_time := some 13, fallback := true } := by decide

/-- C5 amended — when the join key `article_id` or any of the needed item
columns is missing from the feature-store schema, `recommend` resolves to a
per-request fallback response (flag set, no scores, candidates truncated to
the effective `topK`) instead of raising. -/
theorem recommend_missing_columns_fallback (cfg : ServeCfg) (env : ServeEnv)
    (uid : String) (tk : Int) (uf : UserFeat)
    (hc : ¬ env.candidates.isEmpty)
    (hu : env.userFeat = some uf)
    (hcol : "article_id" ∉ env.itemCols ∨ ∃ c ∈ needed_item_cols, c ∉ env.itemCols) :
    recommend cfg env uid tk
      = fallbackRes cfg uid env.candidates (some uf.avg_purchase_hour)
          (effTopK cfg tk) := by
  unfold recommend
  dsimp only
  rw [if_neg hc, hu]
  dsimp only
  split
  · rfl
  · split
    · rfl
    · rename_i hart
      split
      · rfl
      · rename_i hneed
        exfalso
        rcases hcol with hcol | ⟨c, hcm, hcol⟩
        · exact hcol (not_not.mp hart)
        · have hnil := not_not.mp hneed
          rw [List.filter_eq_nil_iff] at hnil
          have hcn := hnil c hcm
          simp only [decide_eq_true_eq, not_not] at hcn
          exact hcol hcn

/-! ## Order theory of the merge ranking -/

/-- C6 — the ranking step of `merge_candidates` is deterministic: any two
enumerations of the same id pool (the Python `set` iteration order is
unspecified) sort to the *same* list, because the sort key is injective and
totally ordered; with fixed inputs the remainder of `merge_candidates` is a
pure function, so repeated calls return identical lists. -/
theorem rankedOf_perm_invariant (pn cn : List (String × ℚ)) (wp wc : ℚ)
    (ids1 ids2 : List String) (hperm : ids1.Perm ids2) :
    rankedOf pn cn wp wc ids1 = rankedOf pn cn wp wc ids2 := by
  refine List.eq_of_perm_of_sorted (r := rankRel pn cn wp wc) ?_ ?_ ?_
  · exact ((List.perm_insertionSort _ ids1).trans hperm).trans
      (List.perm_insertionSort _ ids2).symm
  · exact List.sorted_insertionSort _ ids1
  · exact List.sorted_insertionSort _ ids2

unseal Rat.add Rat.mul Rat.inv Rat.sub Rat.ofScientific in
theorem rankedOf_perm_invariant_witness :
    (List.Perm ["b", "a"] ["a", "b"]) ∧
    rankedOf [("a", 1), ("b", 1)] [] (3/10) (7/10) ["b", "a"]
      = rankedOf [("a", 1), ("b", 1)] [] (3/10) (7/10) ["a", "b"] :=
  ⟨by decide, rankedOf_perm_invariant _ _ _ _ _ _ (by decide)⟩

unseal Rat.add Rat.mul Rat.inv Rat.sub Rat.ofScientific in
/-- C4 counterexample — two candidates with identical `final`, `cfScore` and
`popScore`; the claimed itemID-ascending tiebreak would put `"a"` first, but
`merge_candidates` returns `["b", "a"]`: `sorted(..., reverse=True)` reverses
the whole key tuple, item id included. -/
theorem merge_tiebreak_counterexample :
    merge_candidates (fun v => v) [⟨"a", 1, "pop"⟩, ⟨"b", 1, "pop"⟩] [] []
        2 (3/10) (7/10) = ["b", "a"] ∧
    lookupD (mergeState (fun v => v) [⟨"a", 1, "pop"⟩, ⟨"b", 1, "pop"⟩] [] [] 2).1 "a"
      = lookupD (mergeState (fun v => v) [⟨"a", 1, "pop"⟩, ⟨"b", 1, "pop"⟩] [] [] 2).1 "b" ∧
    lookupD (mergeState (fun v => v) [⟨"a", 1, "pop"⟩, ⟨"b", 1, "pop"⟩] [] [] 2).2.1 "a"
      = lookupD (mergeState (fun v => v) [⟨"a", 1, "pop"⟩, ⟨"b", 1, "pop"⟩] [] [] 2).2.1 "b" ∧
    ("a" : String) < "b" :=
  ⟨by decide, by decide, by decide, String.lt_iff_toList_lt.mpr (by decide)⟩

theorem rankedOf_nodup (pn cn : List (String × ℚ)) (wp wc : ℚ)
    (ids : List String) (hnd : ids.Nodup) :
    (rankedOf pn cn wp wc ids).Nodup :=
  (List.perm_insertionSort _ ids).symm.nodup hnd

/-- With equal first components, lexicographic `≤` reduces to `≤` on the
second components. -/
theorem lex_le_snd {α β : Type} [PartialOrder α] [LE β] {x1 x2 : α} {r1 r2 : β}
    (h : toLex (x1, r1) ≤ toLex (x2, r2)) (hx : x1 = x2) : r1 ≤ r2 := by
  rcases (Prod.Lex.le_iff (x1, r1) (x2, r2)).mp h with hlt | ⟨_, hle⟩
  · exact absurd (hx ▸ hlt) (lt_irrefl x2)
  · exact hle

/-! ## Keys of the normalized maps and the id pool -/

theorem dictInsert_keys (d : List (String × ℚ)) (k0 : String) (v : ℚ) :
    (dictInsert d k0 v).map Prod.fst
      = if d.any (fun p => decide (p.1 = k0)) then d.map Prod.fst
        else d.map Prod.fst ++ [k0] := by
  unfold dictInsert
  by_cases h : d.any (fun p => decide (p.1 = k0))
  · rw [if_pos h, if_pos h, List.map_map]
    refine List.map_congr_left ?_
    intro p hp
    by_cases hpk : p.1 = k0 <;> simp [hpk]
  · rw [if_neg h, if_neg h, List.map_append]
    rfl

theorem dictInsert_keys_nodup (d : List (String × ℚ)) (k0 : String) (v : ℚ)
    (hnd : (d.map Prod.fst).Nodup) : ((dictInsert d k0 v).map Prod.fst).Nodup := by
  rw [dictInsert_keys]
  by_cases h : d.any (fun p => decide (p.1 = k0))
  · rw [if_pos h]; exact hnd
  · rw [if_neg h, List.nodup_append]
    refine ⟨hnd, List.nodup_singleton k0, ?_⟩
    intro x hx hx0
    rw [List.mem_singleton] at hx0
    subst hx0
    rcases List.mem_map.mp hx with ⟨p, hp, hpk⟩
    exact h (List.any_eq_true.mpr ⟨p, hp, by simp [hpk]⟩)

theorem mem_dictInsert_keys (d : List (String × ℚ)) (k0 : String) (v : ℚ) (k : String) :
    k ∈ (dictInsert d k0 v).map Prod.fst ↔ k ∈ d.map Prod.fst ∨ k = k0 := by
  rw [dictInsert_keys]
  by_cases h : d.any (fun p => decide (p.1 = k0))
  · rw [if_pos h]
    constructor
    · exact Or.inl
    · rintro (hk | hk)
      · exact hk
      · subst hk
        rcases List.any_eq_true.mp h with ⟨p, hp, hpk⟩
        simp only [decide_eq_true_eq] at hpk
        exact hpk ▸ List.mem_map_of_mem Prod.fst hp
  · rw [if_neg h]
    simp

theorem dictOfItems_keys_nodup (items : List ScoredItem) :
    ((dictOfItems items).map Prod.fst).Nodup := by
  unfold dictOfItems
  suffices h : ∀ d : List (String × ℚ), (d.map Prod.fst).Nodup →
      ((items.foldl (fun d it => dictInsert d it.item_id it.score) d).map Prod.fst).Nodup by
    exact h [] (by simp)
  induction items with
  | nil => intro d hd; exact hd
  | cons it rest ih => intro d hd; exact ih _ (dictInsert_keys_nodup d _ _ hd)

theorem mem_dictOfItems_keys (items : List ScoredItem) (k : String) :
    k ∈ (dictOfItems items).map Prod.fst ↔ k ∈ items.map ScoredItem.item_id := by
  unfold dictOfItems
  suffices h : ∀ d : List (String × ℚ),
      (k ∈ ((items.foldl (fun d it => dictInsert d it.item_id it.score) d).map Prod.fst)
        ↔ k ∈ d.map Prod.fst ∨ k ∈ items.map ScoredItem.item_id) by
    simpa using h []
  induction items with
  | nil => intro d; simp
  | cons it rest ih =>
    intro d
    rw [List.foldl_cons, ih (dictInsert d it.item_id it.score), mem_dictInsert_keys]
    simp only [List.map_cons, List.mem_cons]
    tauto

theorem normalize_keys (t : ℚ → ℚ) (items : List ScoredItem) :
    (normalize_scores t items).map Prod.fst = (dictOfItems items).map Prod.fst := by
  unfold normalize_scores
  by_cases hE : items.isEmpty
  · rw [if_pos hE]
    have hnil : items = [] := List.isEmpty_iff.mp hE
    subst hnil; rfl
  · rw [if_neg hE]
    dsimp only
    split
    · rw [List.map_map]
      exact List.map_congr_left (fun p _ => rfl)
    · have h1 : (((dictOfItems items).zip
          ((dictOfItems items).map fun p => t (max p.2 0))).map Prod.fst).map Prod.fst
          = (dictOfItems items).map Prod.fst := by
        rw [List.map_fst_zip _ _ (by simp)]
      rw [List.map_map] at h1 ⊢
      exact h1

theorem normalize_keys_nodup (t : ℚ → ℚ) (items : List ScoredItem) :
    ((normalize_scores t items).map Prod.fst).Nodup := by
  rw [normalize_keys]; exact dictOfItems_keys_nodup items

theorem mem_normalize_keys (t : ℚ → ℚ) (items : List ScoredItem) (k : String) :
    k ∈ (normalize_scores t items).map Prod.fst ↔ k ∈ items.map ScoredItem.item_id := by
  rw [normalize_keys]; exact mem_dictOfItems_keys items k

theorem popCfUnion_nodup {pn cn : List (String × ℚ)}
    (h1 : (pn.map Prod.fst).Nodup) (h2 : (cn.map Prod.fst).Nodup) :
    (popCfUnion pn cn).Nodup := by
  unfold popCfUnion
  rw [List.nodup_append]
  refine ⟨h1, h2.filter _, ?_⟩
  intro x hx hxf
  rcases List.mem_filter.mp hxf with ⟨_, hdec⟩
  simp only [decide_eq_true_eq] at hdec
  exact hdec hx

theorem mem_popCfUnion (pn cn : List (String × ℚ)) (k : String) :
    k ∈ popCfUnion pn cn ↔ k ∈ pn.map Prod.fst ∨ k ∈ cn.map Prod.fst := by
  unfold popCfUnion
  rw [List.mem_append, List.mem_filter]
  by_cases h : k ∈ pn.map Prod.fst <;> simp [h]

theorem expandLoop_ids_nodup (K : Nat) (en pn : List (String × ℚ)) (ids : List String)
    (hnd : ids.Nodup) : (expandLoop K en pn ids).2.Nodup := by
  induction en generalizing pn ids with
  | nil => exact hnd
  | cons p rest ih =>
    rcases p with ⟨k, v⟩
    unfold expandLoop
    split
    · exact hnd
    · split
      · exact ih pn ids hnd
      · rename_i hk
        refine ih _ _ ?_
        rw [List.nodup_append]
        refine ⟨hnd, List.nodup_singleton k, ?_⟩
        intro x hx hx0
        rw [List.mem_singleton] at hx0
        subst hx0
        exact hk hx

theorem expandLoop_ids_subset (K : Nat) (en pn : List (String × ℚ)) (ids : List String) :
    ∀ x ∈ ids, x ∈ (expandLoop K en pn ids).2 := by
  induction en generalizing pn ids with
  | nil => intro x hx; exact hx
  | cons p rest ih =>
    rcases p with ⟨k, v⟩
    unfold expandLoop
    split
    · intro x hx; exact hx
    · split
      · exact ih pn ids
      · intro x hx
        exact ih _ _ x (List.mem_append_left _ hx)

theorem expandLoop_supply (K : Nat) (en pn : List (String × ℚ)) (ids : List String) :
    K ≤ (expandLoop K en pn ids).2.length ∨ ∀ p ∈ en, p.1 ∈ (expandLoop K en pn ids).2 := by
  induction en generalizing pn ids with
  | nil => right; intro p hp; cases hp
  | cons q rest ih =>
    rcases q with ⟨k, v⟩
    unfold expandLoop
    split
    · left; assumption
    · split
      · rcases ih pn ids with h | h
        · exact Or.inl h
        · right
          intro p hp
          rcases List.mem_cons.mp hp with hp | hp
          · subst hp
            exact expandLoop_ids_subset K rest pn ids _ (by assumption)
          · exact h p hp
      · rcases ih (dictInsert pn k v) (ids ++ [k]) with h | h
        · exact Or.inl h
        · right
          intro p hp
          rcases List.mem_cons.mp hp with hp | hp
          · subst hp
            exact expandLoop_ids_subset K rest _ _ _
              (List.mem_append_right _ (List.mem_singleton.mpr rfl))
          · exact h p hp

theorem expandLoop_noop (K : Nat) (en pn : List (String × ℚ)) (ids : List String)
    (h : ∀ p ∈ en, p.1 ∈ ids) : expandLoop K en pn ids = (pn, ids) := by
  induction en with
  | nil => rfl
  | cons q rest ih =>
    rcases q with ⟨k, v⟩
    unfold expandLoop
    split
    · rfl
    · rw [if_pos (h (k, v) (List.mem_cons_self _ _))]
      exact ih (fun p hp => h p (List.mem_cons_of_mem _ hp))

theorem mergeState_ids_nodup (t : ℚ → ℚ) (pop cf exp : List ScoredItem) (K : Nat) :
    (mergeState t pop cf exp K).2.2.Nodup := by
  unfold mergeState
  dsimp only
  have hu := popCfUnion_nodup (normalize_keys_nodup t pop) (normalize_keys_nodup t cf)
  split
  · exact expandLoop_ids_nodup _ _ _ _ hu
  · exact hu

theorem getD_str_eq_getElem (l : List String) (i : Nat) (h : i < l.length) :
    l.getD i "" = l.get ⟨i, h⟩ := by
  rw [List.getD_eq_getElem?_getD, List.getElem?_eq_getElem h]
  rfl

/-- C4 amended — `merge_candidates` does order by `final`, then `cfScore`,
then `popScore` descending, but on a full tie of all three score components
the item with the LARGER id comes first (Python `sorted(..., reverse=True)`
reverses the id component of the key as well), i.e. itemID descending, not
ascending. -/
theorem merge_tiebreak_itemid_descending (t : ℚ → ℚ) (pop cf exp : List ScoredItem)
    (tk : Int) (wp wc : ℚ) (i j : Nat) :
    let out := merge_candidates t pop cf exp tk wp wc
    let pn := (mergeState t pop cf exp tk.toNat).1
    let cn := (mergeState t pop cf exp tk.toNat).2.1
    i < j → j < out.length →
    wp * lookupD pn (out.getD i "") + wc * lookupD cn (out.getD i "")
      = wp * lookupD pn (out.getD j "") + wc * lookupD cn (out.getD j "") →
    lookupD cn (out.getD i "") = lookupD cn (out.getD j "") →
    lookupD pn (out.getD i "") = lookupD pn (out.getD j "") →
    out.getD j "" < out.getD i "" := by
  intro out pn cn hij hj hfin hcs hps
  by_cases htk : tk ≤ 0
  · exfalso
    have hnil : out = [] := by
      unfold out
      unfold merge_candidates
      rw [if_pos htk]
    rw [hnil] at hj
    exact Nat.not_lt_zero j hj
  · have hout : out = (rankedOf pn cn wp wc
        (mergeState t pop cf exp tk.toNat).2.2).take tk.toNat := by
      unfold out pn cn
      unfold merge_candidates
      rw [if_neg htk]
    have hsorted : out.Pairwise (rankRel pn cn wp wc) := by
      rw [hout]
      exact List.Pairwise.sublist (List.take_sublist _ _)
        (List.sorted_insertionSort _ _)
    have hnodup : out.Nodup := by
      rw [hout]
      exact List.Nodup.sublist (List.take_sublist _ _)
        (rankedOf_nodup pn cn wp wc _ (mergeState_ids_nodup t pop cf exp tk.toNat))
    have hi : i < out.length := lt_trans hij hj
    have hgi : out.getD i "" = out.get ⟨i, hi⟩ := getD_str_eq_getElem out i hi
    have hgj : out.getD j "" = out.get ⟨j, hj⟩ := getD_str_eq_getElem out j hj
    rw [hgi, hgj] at hfin hcs hps ⊢
    have hr : rankRel pn cn wp wc (out.get ⟨i, hi⟩) (out.get ⟨j, hj⟩) := by
      have hpw := List.pairwise_iff_getElem.mp hsorted i j hi hj hij
      simpa [List.get_eq_getElem] using hpw
    have hne : out.get ⟨i, hi⟩ ≠ out.get ⟨j, hj⟩ := by
      intro he
      have hinj := (hnodup.get_inj_iff).mp he
      exact absurd (congrArg Fin.val hinj) (Nat.ne_of_lt hij)
    have hr' : toLex (wp * lookupD pn (out.get ⟨j, hj⟩) + wc * lookupD cn (out.get ⟨j, hj⟩),
          toLex (lookupD cn (out.get ⟨j, hj⟩),
            toLex (lookupD pn (out.get ⟨j, hj⟩), (out.get ⟨j, hj⟩).data)))
        ≤ toLex (wp * lookupD pn (out.get ⟨i, hi⟩) + wc * lookupD cn (out.get ⟨i, hi⟩),
          toLex (lookupD cn (out.get ⟨i, hi⟩),
            toLex (lookupD pn (out.get ⟨i, hi⟩), (out.get ⟨i, hi⟩).data))) := hr
    have h2 := lex_le_snd hr' hfin.symm
    have h3 := lex_le_snd h2 hcs.symm
    have h4 := lex_le_snd h3 hps.symm
    have hlt : (out.get ⟨j, hj⟩).data < (out.get ⟨i, hi⟩).data := by
      refine lt_of_le_of_ne h4 ?_
      intro he
      exact hne (String.ext he).symm
    exact String.lt_iff_toList_lt.mpr hlt

unseal Rat.add Rat.mul Rat.inv Rat.sub Rat.ofScientific in
theorem merge_tiebreak_itemid_descending_witness :
    (merge_candidates (fun v => v) [⟨"x", 2, "pop"⟩, ⟨"y", 2, "pop"⟩] [] []
        2 (3/10) (7/10)).getD 1 ""
      < (merge_candidates (fun v => v) [⟨"x", 2, "pop"⟩, ⟨"y", 2, "pop"⟩] [] []
        2 (3/10) (7/10)).getD 0 "" :=
  merge_tiebreak_itemid_descending (fun v => v) [⟨"x", 2, "pop"⟩, ⟨"y", 2, "pop"⟩]
    [] [] 2 (3/10) (7/10) 0 1 (by decide) (by decide) (by decide) (by decide) (by decide)

theorem rankedOf_length (pn cn : List (String × ℚ)) (wp wc : ℚ) (ids : List String) :
    (rankedOf pn cn wp wc ids).length = ids.length :=
  (List.perm_insertionSort _ ids).length_eq

/-- After the expansion step the id pool holds at least `K` ids whenever the
three pools together can supply `K` distinct ids. -/
theorem mergeState_supply (t : ℚ → ℚ) (pop cf exp : List ScoredItem) (K : Nat)
    (hsup : K ≤ ((pop.map ScoredItem.item_id) ++ (cf.map ScoredItem.item_id)
        ++ (exp.map ScoredItem.item_id)).dedup.length) :
    K ≤ (mergeState t pop cf exp K).2.2.length := by
  unfold mergeState
  dsimp only
  have hund := popCfUnion_nodup (normalize_keys_nodup t pop) (normalize_keys_nodup t cf)
  split
  · rename_i hlt
    rcases expandLoop_supply K (normalize_scores t exp) (normalize_scores t pop)
        (popCfUnion (normalize_scores t pop) (normalize_scores t cf)) with h | h
    · exact h
    · have hnd2 := expandLoop_ids_nodup K (normalize_scores t exp)
        (normalize_scores t pop)
        (popCfUnion (normalize_scores t pop) (normalize_scores t cf)) hund
      have hsub : ∀ x ∈ ((pop.map ScoredItem.item_id) ++ (cf.map ScoredItem.item_id)
          ++ (exp.map ScoredItem.item_id)).dedup,
          x ∈ (expandLoop K (normalize_scores t exp) (normalize_scores t pop)
            (popCfUnion (normalize_scores t pop) (normalize_scores t cf))).2 := by
        intro x hx
        rw [List.mem_dedup, List.append_assoc, List.mem_append] at hx
        rcases hx with hx | hx
        · refine expandLoop_ids_subset _ _ _ _ x ?_
          rw [mem_popCfUnion, mem_normalize_keys, mem_normalize_keys]
          exact Or.inl hx
        · rw [List.mem_append] at hx
          rcases hx with hx | hx
          · refine expandLoop_ids_subset _ _ _ _ x ?_
            rw [mem_popCfUnion, mem_normalize_keys, mem_normalize_keys]
            exact Or.inr hx
          · have hx' : x ∈ (normalize_scores t exp).map Prod.fst := by
              rw [mem_normalize_keys]; exact hx
            rcases List.mem_map.mp hx' with ⟨p, hp, hpx⟩
            exact hpx ▸ h p hp
      calc K ≤ ((pop.map ScoredItem.item_id) ++ (cf.map ScoredItem.item_id)
            ++ (exp.map ScoredItem.item_id)).dedup.length := hsup
        _ ≤ _ := List.Subperm.length_le ((List.nodup_dedup _).subperm hsub)
  · rename_i hge
    exact Nat.le_of_not_lt hge

/-- C8 — `merge_candidates` returns at most `totalK` ids, and exactly
`totalK` whenever the popularity pool, the CF pool and the fallback
expansion pool together can supply `totalK` distinct ids. -/
theorem merge_bounded_size (t : ℚ → ℚ) (pop cf exp : List ScoredItem)
    (tk : Int) (wp wc : ℚ) (htk : 0 ≤ tk) :
    (merge_candidates t pop cf exp tk wp wc).length ≤ tk.toNat ∧
    (tk.toNat ≤ ((pop.map ScoredItem.item_id) ++ (cf.map ScoredItem.item_id)
        ++ (exp.map ScoredItem.item_id)).dedup.length →
      (merge_candidates t pop cf exp tk wp wc).length = tk.toNat) := by
  by_cases h0 : tk ≤ 0
  · have h00 : tk = 0 := le_antisymm h0 htk
    subst h00
    exact ⟨by simp [merge_candidates], fun _ => by simp [merge_candidates]⟩
  · constructor
    · unfold merge_candidates
      rw [if_neg h0]
      simp [List.length_take]
    · intro hsup
      unfold merge_candidates
      rw [if_neg h0]
      dsimp only
      rw [List.length_take, rankedOf_length]
      exact Nat.min_eq_left (mergeState_supply t pop cf exp tk.toNat hsup)

unseal Rat.add Rat.mul Rat.inv Rat.sub Rat.ofScientific in
theorem merge_bounded_size_witness :
    ((0 : Int) ≤ 2) ∧
    (merge_candidates (fun v => v) [⟨"x", 1, "pop"⟩] [⟨"y", 1, "cf"⟩] []
        2 (3/10) (7/10)).length ≤ (2 : Int).toNat ∧
    (merge_candidates (fun v => v) [⟨"x", 1, "pop"⟩] [⟨"y", 1, "cf"⟩] []
        2 (3/10) (7/10)).length = (2 : Int).toNat :=
  ⟨by decide,
    (merge_bounded_size (fun v => v) [⟨"x", 1, "pop"⟩] [⟨"y", 1, "cf"⟩] []
      2 (3/10) (7/10) (by decide)).1,
    (merge_bounded_size (fun v => v) [⟨"x", 1, "pop"⟩] [⟨"y", 1, "cf"⟩] []
      2 (3/10) (7/10) (by decide)).2 (by decide)⟩

/-! ## Graceful degradation to the popularity signal -/

theorem popScored_eq_map (rows : List (String × ℚ)) :
    generate_popularity_scored (rows.map (fun p => (p.1, some p.2)))
      = rows.map (fun p => ⟨p.1, 1 / (1 + max p.2 0), "pop"⟩) := by
  unfold generate_popularity_scored
  rw [List.map_map]
  rfl

theorem foldl_dictInsert_eq (items : List ScoredItem) :
    ∀ d : List (String × ℚ),
      (items.map ScoredItem.item_id).Nodup →
      (∀ k ∈ d.map Prod.fst, k ∉ items.map ScoredItem.item_id) →
      items.foldl (fun d it => dictInsert d it.item_id it.score) d
        = d ++ items.map (fun it => (it.item_id, it.score)) := by
  induction items with
  | nil => intro d _ _; simp
  | cons it rest ih =>
    intro d hnd hdisj
    rw [List.map_cons, List.nodup_cons] at hnd
    rw [List.foldl_cons]
    have hany : ¬ (d.any (fun p => decide (p.1 = it.item_id)) = true) := by
      intro hany
      rcases List.any_eq_true.mp hany with ⟨p, hp, hpk⟩
      simp only [decide_eq_true_eq] at hpk
      refine hdisj p.1 (List.mem_map_of_mem Prod.fst hp) ?_
      rw [hpk]
      simp
    have hins : dictInsert d it.item_id it.score = d ++ [(it.item_id, it.score)] := by
      unfold dictInsert
      rw [if_neg hany]
    rw [hins, ih (d ++ [(it.item_id, it.score)]) hnd.2 ?_]
    · rw [List.append_assoc]
      rfl
    · intro k hk
      rw [List.map_append, List.mem_append] at hk
      rcases hk with hk | hk
      · intro hkr
        exact hdisj k hk
          (by simp only [List.map_cons, List.mem_cons]; exact Or.inr hkr)
      · rw [List.map_singleton, List.mem_singleton] at hk
        subst hk
        intro hkr
        exact hnd.1 hkr

theorem dictOfItems_eq_map (items : List ScoredItem)
    (hnd : (items.map ScoredItem.item_id).Nodup) :
    dictOfItems items = items.map (fun it => (it.item_id, it.score)) := by
  unfold dictOfItems
  simpa using foldl_dictInsert_eq items [] hnd (by simp)

theorem lookupD_map_eq {β : Type} (f : β → String) (g : β → ℚ) (l : List β)
    (hnd : (l.map f).Nodup) (x : β) (hx : x ∈ l) :
    lookupD (l.map (fun y => (f y, g y))) (f x) = g x := by
  induction l with
  | nil => cases hx
  | cons y ys ih =>
    rw [List.map_cons, List.nodup_cons] at hnd
    rw [List.map_cons]
    by_cases hy : f y = f x
    · have hxy : x = y := by
        rcases List.mem_cons.mp hx with h | h
        · exact h
        · exact absurd (hy ▸ List.mem_map_of_mem f h) hnd.1
      subst hxy
      unfold lookupD
      rw [List.find?_cons_of_pos _ (by simp)]
    · have hx' : x ∈ ys := by
        rcases List.mem_cons.mp hx with h | h
        · exact absurd (h ▸ rfl) hy
        · exact h
      unfold lookupD
      rw [List.find?_cons_of_neg _ (by simp [hy])]
      exact ih hnd.2 hx'

theorem normalize_eq_map (t : ℚ → ℚ) (items : List ScoredItem)
    (hnd : (items.map ScoredItem.item_id).Nodup)
    (hne : items ≠ [])
    (hdeg : ¬ (listMax (rawValsOf t items) ≤ listMin (rawValsOf t items) + eps)) :
    normalize_scores t items = items.map (fun it =>
      (it.item_id, (t (max it.score 0) - listMin (rawValsOf t items))
        / (listMax (rawValsOf t items) - listMin (rawValsOf t items)))) := by
  unfold normalize_scores
  rw [if_neg (by simpa [List.isEmpty_iff] using hne)]
  dsimp only
  rw [if_neg (by exact hdeg)]
  unfold rawValsOf
  rw [dictOfItems_eq_map items hnd, List.map_map, List.zip_map', List.map_map]
  rfl

/-- An id pool already in strictly descending key order sorts to itself. -/
theorem rankedOf_of_sorted (pn cn : List (String × ℚ)) (wp wc : ℚ) (ids : List String)
    (h : ids.Pairwise (fun a b => keyOf pn cn wp wc b < keyOf pn cn wp wc a)) :
    rankedOf pn cn wp wc ids = ids :=
  List.Sorted.insertionSort_eq (h.imp (fun hab => le_of_lt hab))

/-- C9 amended — when the CF source surfaces nothing (no co-purchase data,
so every candidate's CF contribution is the default 0) and popularity ranks
are distinct ascending non-negative values, the merged order equals the
popularity order for any positive weights, truncated to `totalK` — PROVIDED
the fallback expansion pool surfaces no item outside the popularity pool
(hypothesis `hexp`; e.g. no expansion is triggered, or the expansion only
re-surfaces pool items).  Without that proviso the claim is false:
`merge_pop_degradation_counterexample` shows a fresh expansion id breaking
the popularity order.  The `log1p` transform is abstract; strict
monotonicity (which `log1p` has) and a non-degenerate normalization spread
are hypotheses. -/
theorem merge_pop_degradation (t : ℚ → ℚ) (rows : List (String × ℚ))
    (exp : List ScoredItem) (tk : Int) (wp wc : ℚ)
    (hnd : (rows.map Prod.fst).Nodup)
    (hrk : rows.Pairwise (fun p q => p.2 < q.2))
    (hnn : ∀ p ∈ rows, 0 ≤ p.2)
    (hmono : StrictMono t)
    (hdeg : ¬ (listMax (rawValsOf t (generate_popularity_scored
          (rows.map (fun p => (p.1, some p.2)))))
        ≤ listMin (rawValsOf t (generate_popularity_scored
          (rows.map (fun p => (p.1, some p.2))))) + eps))
    (hwp : 0 < wp) (hwc : 0 < wc)
    (hexp : ∀ x ∈ exp, x.item_id ∈ rows.map Prod.fst) :
    merge_candidates t (generate_popularity_scored (rows.map (fun p => (p.1, some p.2))))
        [] exp tk wp wc
      = (rows.map Prod.fst).take tk.toNat := by
  set pop := generate_popularity_scored (rows.map (fun p => (p.1, some p.2))) with hpop
  have hpopmap : pop = rows.map (fun p => ⟨p.1, 1 / (1 + max p.2 0), "pop"⟩) :=
    popScored_eq_map rows
  have hids : pop.map ScoredItem.item_id = rows.map Prod.fst := by
    rw [hpopmap, List.map_map]
    rfl
  have hndp : (pop.map ScoredItem.item_id).Nodup := by rw [hids]; exact hnd
  have hne : pop ≠ [] := by
    intro h
    apply hdeg
    rw [h]
    norm_num [rawValsOf, dictOfItems, listMax, listMin, eps]
  have hpn : normalize_scores t pop = pop.map (fun it =>
      (it.item_id, (t (max it.score 0) - listMin (rawValsOf t pop))
        / (listMax (rawValsOf t pop) - listMin (rawValsOf t pop)))) :=
    normalize_eq_map t pop hndp hne hdeg
  have hpn' : normalize_scores t pop = rows.map (fun p =>
      (p.1, (t (1 / (1 + p.2)) - listMin (rawValsOf t pop))
        / (listMax (rawValsOf t pop) - listMin (rawValsOf t pop)))) := by
    rw [hpn, hpopmap, List.map_map]
    refine List.map_congr_left ?_
    intro p hp
    have h0 : 0 ≤ p.2 := hnn p hp
    have hs : (0 : ℚ) < 1 / (1 + p.2) := by positivity
    simp only [Function.comp, max_eq_left h0, max_eq_left (le_of_lt hs)]
  have hcn : normalize_scores t ([] : List ScoredItem) = [] := rfl
  have hkeys : (normalize_scores t pop).map Prod.fst = rows.map Prod.fst := by
    rw [hpn', List.map_map]
    rfl
  have hids0 : popCfUnion (normalize_scores t pop) (normalize_scores t ([] : List ScoredItem))
      = rows.map Prod.fst := by
    rw [hcn]
    unfold popCfUnion
    simp only [List.map_nil, List.filter_nil, List.append_nil]
    exact hkeys
  have hmem : ∀ p ∈ normalize_scores t exp, p.1 ∈ rows.map Prod.fst := by
    intro p hp
    have hp' : p.1 ∈ (normalize_scores t exp).map Prod.fst :=
      List.mem_map_of_mem Prod.fst hp
    rw [mem_normalize_keys] at hp'
    rcases List.mem_map.mp hp' with ⟨x, hx, hxe⟩
    exact hxe ▸ hexp x hx
  have hstate : mergeState t pop [] exp tk.toNat
      = (normalize_scores t pop, [], rows.map Prod.fst) := by
    unfold mergeState
    dsimp only
    rw [hids0, hcn]
    split
    · rw [expandLoop_noop _ _ _ _ hmem]
    · rfl
  by_cases htk : tk ≤ 0
  · rw [merge_candidates, if_pos htk, Int.toNat_of_nonpos htk]
    simp
  · have hD : 0 < listMax (rawValsOf t pop) - listMin (rawValsOf t pop) := by
      have heps : (0 : ℚ) < eps := by norm_num [eps]
      have hlt := lt_of_not_le hdeg
      linarith
    have hpw : (rows.map Prod.fst).Pairwise
        (fun a b => keyOf (normalize_scores t pop) [] wp wc b
          < keyOf (normalize_scores t pop) [] wp wc a) := by
      rw [List.pairwise_map]
      refine List.Pairwise.imp_of_mem ?_ hrk
      intro p q hp hq hlt
      have hlp : lookupD (normalize_scores t pop) p.1
          = (t (1 / (1 + p.2)) - listMin (rawValsOf t pop))
            / (listMax (rawValsOf t pop) - listMin (rawValsOf t pop)) := by
        rw [hpn']
        exact lookupD_map_eq Prod.fst _ rows hnd p hp
      have hlq : lookupD (normalize_scores t pop) q.1
          = (t (1 / (1 + q.2)) - listMin (rawValsOf t pop))
            / (listMax (rawValsOf t pop) - listMin (rawValsOf t pop)) := by
        rw [hpn']
        exact lookupD_map_eq Prod.fst _ rows hnd q hq
      have hsp : t (1 / (1 + q.2)) < t (1 / (1 + p.2)) := by
        apply hmono
        have h0p : 0 ≤ p.2 := hnn p hp
        exact one_div_lt_one_div_of_lt (by linarith) (by linarith)
      have hnu : lookupD (normalize_scores t pop) q.1
          < lookupD (normalize_scores t pop) p.1 := by
        rw [hlp, hlq]
        exact (div_lt_div_iff_of_pos_right hD).mpr (by linarith)
      unfold keyOf
      dsimp only
      refine (Prod.Lex.lt_iff _ _).mpr (Or.inl ?_)
      have hfin := mul_lt_mul_of_pos_left hnu hwp
      have hcz : ∀ s : String, lookupD ([] : List (String × ℚ)) s = 0 := fun s => rfl
      rw [hcz, hcz]
      simpa using hfin
    unfold merge_candidates
    rw [if_neg htk]
    dsimp only
    rw [hstate]
    dsimp only
    rw [rankedOf_of_sorted _ _ _ _ _ hpw]

unseal Rat.add Rat.mul Rat.inv Rat.sub Rat.ofScientific in
/-- C9 counterexample — with CF uniformly absent, distinct ranks 1,2,3,4 and
positive weights, a fallback expansion that surfaces the fresh item `"d"`
(ranks 1..3 in the popularity pool, 1..4 in the expansion pool, `totalK = 4`
— the regime of the repository's own serving call, where
`total_k = 300 > pop_top = 200`) yields `["a","b","d","c"]`, not the
popularity order `["a","b","c","d"]`: the pool minimum `"c"` and the fresh
expansion minimum `"d"` both normalize to exactly 0, so the full-tie itemID-
descending tiebreak puts `"d"` first.  The decisive scores are the exact
minima of each pool, so the outcome is the same for every strictly monotone
transform, `log1p` included; the identity instantiates it. -/
theorem merge_pop_degradation_counterexample :
    merge_candidates (fun v => v)
        (generate_popularity_scored [("a", some 1), ("b", some 2), ("c", some 3)]) []
        (generate_popularity_scored
          [("a", some 1), ("b", some 2), ("c", some 3), ("d", some 4)])
        4 (3/10) (7/10) = ["a", "b", "d", "c"] ∧
    (["a", "b", "d", "c"] : List String) ≠ ["a", "b", "c", "d"] :=
  ⟨by decide, by decide⟩

unseal Rat.add Rat.mul Rat.inv Rat.sub Rat.ofScientific in
theorem merge_pop_degradation_witness :
    merge_candidates (fun v => v)
        (generate_popularity_scored [("a", some 1), ("b", some 2), ("c", some 3)]) [] []
        3 (3/10) (7/10) = ["a", "b", "c"] := by
  have h := merge_pop_degradation (fun v => v) [("a", 1), ("b", 2), ("c", 3)] [] 3
    (3/10) (7/10) (by decide) (by decide) (by decide) (fun a b hab => hab)
    (by decide) (by decide) (by decide)
    (fun x hx => absurd hx (List.not_mem_nil x))
  simpa using h

/-! ## Concrete witnesses for the serving-side theorems -/

unseal Rat.add Rat.mul Rat.inv Rat.sub Rat.ofScientific in
theorem normalize_scores_range_witness :
    (([⟨"a", 1, "pop"⟩, ⟨"b", 2, "pop"⟩] : List ScoredItem) ≠ []) ∧
    (∀ p ∈ normalize_scores (fun v => v) [⟨"a", 1, "pop"⟩, ⟨"b", 2, "pop"⟩],
      0 ≤ p.2 ∧ p.2 ≤ 1) ∧
    (∀ p ∈ normalize_scores (fun v => v) [⟨"c", 5, "pop"⟩, ⟨"d", 5, "pop"⟩], p.2 = 1) :=
  ⟨by decide,
    (normalize_scores_range (fun v => v) [⟨"a", 1, "pop"⟩, ⟨"b", 2, "pop"⟩] (by decide)).1,
    (normalize_scores_range (fun v => v) [⟨"c", 5, "pop"⟩, ⟨"d", 5, "pop"⟩] (by decide)).2
      (by decide)⟩

unseal Rat.add Rat.mul Rat.inv Rat.sub Rat.ofScientific in
theorem recommend_alignment_witness :
    let env : ServeEnv :=
      { candidates := ["i1", "i2"], userFeat := some ⟨10, 2, 3, 4⟩,
        itemCols := ["article_id", "popularity_rank", "sales_count", "peak_hour"],
        itemRows := [("i1", ⟨some 1, some 5, some 9⟩), ("i2", ⟨some 2, some 6, some 8⟩)],
        rankerPresent := true, predictScores := Except.ok [1/2, 9/10], topIdx := [1, 0] }
    ((recommend ⟨10, 12⟩ env "u" 2).fallback = false) ∧
    (∃ s, (recommend ⟨10, 12⟩ env "u" 2).scores = some s ∧
      s.length = (recommend ⟨10, 12⟩ env "u" 2).recommendations.length ∧
      ∀ i, i < s.length →
        ∃ j, j < (postFilterIds env).length ∧ j < (predictedOf env).length ∧
          (recommend ⟨10, 12⟩ env "u" 2).recommendations.getD i ""
            = (postFilterIds env).getD j "" ∧
          s.getD i 0 = (predictedOf env).getD j 0) :=
  ⟨by decide, recommend_alignment ⟨10, 12⟩
    { candidates := ["i1", "i2"], userFeat := some ⟨10, 2, 3, 4⟩,
      itemCols := ["article_id", "popularity_rank", "sales_count", "peak_hour"],
      itemRows := [("i1", ⟨some 1, some 5, some 9⟩), ("i2", ⟨some 2, some 6, some 8⟩)],
      rankerPresent := true, predictScores := Except.ok [1/2, 9/10], topIdx := [1, 0] }
    "u" 2 (by decide)⟩

unseal Rat.add Rat.mul Rat.inv Rat.sub Rat.ofScientific in
theorem recommend_model_failure_fallback_witness :
    let env : ServeEnv :=
      { candidates := ["i1", "i2"], userFeat := some ⟨10, 2, 3, 4⟩,
        itemCols := ["article_id", "popularity_rank", "sales_count", "peak_hour"],
        itemRows := [("i1", ⟨some 1, some 5, some 9⟩), ("i2", ⟨some 2, some 6, some 8⟩)],
        rankerPresent := false, predictScores := Except.ok [], topIdx := [] }
    (recommend ⟨10, 12⟩ env "u" 1).fallback = true ∧
    (recommend ⟨10, 12⟩ env "u" 1).scores = none ∧
    ∃ sub : List String, List.Sublist sub env.candidates ∧
      (recommend ⟨10, 12⟩ env "u" 1).recommendations = sub.take (1 : Int).toNat ∧
      (recommend ⟨10, 12⟩ env "u" 1).recommendations.length ≤ (1 : Int).toNat :=
  recommend_model_failure_fallback ⟨10, 12⟩
    { candidates := ["i1", "i2"], userFeat := some ⟨10, 2, 3, 4⟩,
      itemCols := ["article_id", "popularity_rank", "sales_count", "peak_hour"],
      itemRows := [("i1", ⟨some 1, some 5, some 9⟩), ("i2", ⟨some 2, some 6, some 8⟩)],
      rankerPresent := false, predictScores := Except.ok [], topIdx := [] }
    "u" 1 (by decide) (Or.inl rfl) (by decide) (by decide)

unseal Rat.add Rat.mul Rat.inv Rat.sub Rat.ofScientific in
theorem recommend_missing_columns_fallback_witness :
    recommend ⟨10, 12⟩
      { candidates := ["i1"], userFeat := some ⟨13, 5, 2, 3⟩,
        itemCols := ["article_id", "popularity_rank", "sales_count"],
        itemRows := [("i1", ⟨some 1, some 2, some 3⟩)],
        rankerPresent := true, predictScores := Except.ok [1], topIdx := [0] }
      "u" 7
      = fallbackRes ⟨10, 12⟩ "u" ["i1"] (some 13) (effTopK ⟨10, 12⟩ 7) :=
  recommend_missing_columns_fallback ⟨10, 12⟩
    { candidates := ["i1"], userFeat := some ⟨13, 5, 2, 3⟩,
      itemCols := ["article_id", "popularity_rank", "sales_count"],
      itemRows := [("i1", ⟨some 1, some 2, some 3⟩)],
      rankerPresent := true, predictScores := Except.ok [1], topIdx := [0] }
    "u" 7 ⟨13, 5, 2, 3⟩ (by decide) rfl (Or.inr ⟨"peak_hour", by decide, by decide⟩)
